import Mathlib

/-!
Verification of the anharmonic free-energy post-processing module
(`free_energy_module_oo.py`).

The numeric code is embedded shallowly over exact arithmetic: every
floating-point quantity becomes a rational number (`ℚ`), except for the
final values that genuinely involve `sqrt`, `exp` and `log`, which live in
`ℝ`.  NumPy array operations are translated to `List` operations.  File
reading is out of scope (the spec treats parsing as an external adapter);
each embedded function takes the already-parsed data that the original
reads from disk.
-/

set_option maxHeartbeats 2000000

namespace FreeEnergy

/-! ### Physical constants (module header, lines 9-15 of the source) -/

/-- Reduced Planck constant in J s (`hb_J = 1.0545718e-34`). -/
noncomputable def hb_J : ℝ := 1.0545718e-34

/-- Boltzmann constant in J/K (`kb_J = 1.38064852*10**-23`). -/
noncomputable def kb_J : ℝ := 1.38064852e-23

/-- Boltzmann constant in eV/K (`kb_ev = 8.6173303*10**-5`). -/
noncomputable def kb_ev : ℝ := 8.6173303e-5

/-- Electronvolt in J (`ev2J = 1.60217662*10**-19`). -/
noncomputable def ev2J : ℝ := 1.60217662e-19

/-- J in eV (`J2ev = 1/ev2J`). -/
noncomputable def J2ev : ℝ := 1 / ev2J

/-! ### NumPy primitives used by the module -/

/-- `np.trapz(y, x)`: the composite trapezoid rule
`sum_j (x[j+1]-x[j]) * (y[j]+y[j+1]) / 2` over consecutive points. -/
def trapz : List ℚ → List ℚ → ℚ
  | y0 :: y1 :: ys, x0 :: x1 :: xs =>
      (x1 - x0) * (y0 + y1) / 2 + trapz (y1 :: ys) (x1 :: xs)
  | _, _ => 0

/-- `np.gradient(y)` with unit spacing: one-sided differences at the two
ends, central differences in the interior.  NumPy raises for inputs of
length below 2; the module only applies it to such inputs, and we return
`[]` there. -/
def npGradient (y : List ℚ) : List ℚ :=
  if y.length < 2 then []
  else (List.range y.length).map (fun j =>
    if j = 0 then y.getD 1 0 - y.getD 0 0
    else if j = y.length - 1 then y.getD j 0 - y.getD (j - 1) 0
    else (y.getD (j + 1) 0 - y.getD (j - 1) 0) / 2)

/-- `np.sign` on exact rationals. -/
def npSign (q : ℚ) : ℚ := if 0 < q then 1 else if q < 0 then -1 else 0

/-- `np.mean` of a list (`sum / length`). -/
def npMean (l : List ℚ) : ℚ := l.sum / (l.length : ℚ)

/-- The square of `np.std(u)` (population standard deviation, `ddof = 0`):
mean of the squared deviations from the mean. -/
def npStdSq (u : List ℚ) : ℚ :=
  ((u.map (fun v => (v - npMean u) ^ 2)).sum) / (u.length : ℚ)

/-! ### Trapezoid integrator (`intgrt`, source lines 39-57) -/

/-- `intgrt(x, y)`: starts both outputs at 0; for each `i` in
`range(1, len(x))` appends `np.trapz(y[:i+1], x[:i+1])` to the integral and
`((x[-1]-x[0])**2/(12*len(x)**2)) * (y_p[-1]-y_p[0])` to the error, where
`y_p = np.gradient(y[:i+1])`.  Note that `x[-1]` and `len(x)` refer to the
full input, not the growing prefix. -/
def intgrt (x y : List ℚ) : List ℚ × List ℚ :=
  let n := x.length
  let I := 0 :: (List.range (n - 1)).map (fun i0 =>
    trapz (y.take (i0 + 2)) (x.take (i0 + 2)))
  let err := 0 :: (List.range (n - 1)).map (fun i0 =>
    let yp := npGradient (y.take (i0 + 2))
    ((x.getD (n - 1) 0 - x.getD 0 0) ^ 2 / (12 * (n : ℚ) ^ 2)) *
      (yp.getD (yp.length - 1) 0 - yp.getD 0 0))
  (I, err)

/-- Spec-side trapezoid-rule integral of `y` over `x[0..k]`:
`sum_{j<k} (x[j+1]-x[j]) * (y[j]+y[j+1]) / 2`. -/
def trapSum (x y : List ℚ) (k : ℕ) : ℚ :=
  ((List.range k).map (fun j =>
    (x.getD (j + 1) 0 - x.getD j 0) * (y.getD j 0 + y.getD (j + 1) 0) / 2)).sum

/-- Spec-side truncation-error term at index `k`:
`((x[n-1]-x[0])^2 / (12*n^2)) * (yp[k] - yp[0])` with `n` the full window
length and `yp` the numerical gradient of the prefix `y[0..k]`. -/
def trapErr (x y : List ℚ) (k : ℕ) : ℚ :=
  let yp := npGradient (y.take (k + 1))
  ((x.getD (x.length - 1) 0 - x.getD 0 0) ^ 2 / (12 * (x.length : ℚ) ^ 2)) *
    (yp.getD k 0 - yp.getD 0 0)

/-! ### Basic lemmas about the integrator -/

theorem trapz_eq_sum (y x : List ℚ) :
    trapz y x = ((List.range (min y.length x.length - 1)).map (fun j =>
      (x.getD (j + 1) 0 - x.getD j 0) * (y.getD j 0 + y.getD (j + 1) 0) / 2)).sum := by
  induction y generalizing x with
  | nil => simp [trapz]
  | cons y0 ytl ih =>
    cases ytl with
    | nil =>
      cases x with
      | nil => simp [trapz]
      | cons x0 xtl => simp [trapz]
    | cons y1 ys =>
      cases x with
      | nil => simp [trapz]
      | cons x0 xtl =>
        cases xtl with
        | nil => simp [trapz]
        | cons x1 xs =>
          rw [trapz, ih (x1 :: xs)]
          simp only [List.length_cons]
          have hmin : min (ys.length + 1 + 1) (xs.length + 1 + 1) - 1 =
              (min (ys.length + 1) (xs.length + 1) - 1) + 1 := by
            omega
          rw [hmin, List.range_succ_eq_map]
          simp only [List.map_cons, List.sum_cons, List.map_map]
          congr 1

theorem length_npGradient (y : List ℚ) (h : 2 ≤ y.length) :
    (npGradient y).length = y.length := by
  rw [npGradient, if_neg (by omega)]
  simp

theorem getD_take_of_lt (l : List ℚ) (m j : ℕ) (h : j < m) :
    (l.take m).getD j 0 = l.getD j 0 := by
  rcases lt_or_le j l.length with hj | hj
  · rw [List.getD_eq_getElem?_getD, List.getD_eq_getElem?_getD,
      List.getElem?_take, if_pos h]
  · rw [List.getD_eq_getElem?_getD, List.getD_eq_getElem?_getD,
      List.getElem?_eq_none (by simpa using Or.inr hj),
      List.getElem?_eq_none hj]

theorem getD_map_range (g : ℕ → ℚ) (m j : ℕ) (h : j < m) :
    ((List.range m).map g).getD j 0 = g j := by
  rw [List.getD_eq_getElem?_getD]
  simp [List.getElem?_range, h]

theorem length_intgrt_fst (x y : List ℚ) (h : 1 ≤ x.length) :
    (intgrt x y).1.length = x.length := by
  simp only [intgrt, List.length_cons, List.length_map, List.length_range]
  omega

theorem length_intgrt_snd (x y : List ℚ) (h : 1 ≤ x.length) :
    (intgrt x y).2.length = x.length := by
  simp only [intgrt, List.length_cons, List.length_map, List.length_range]
  omega

theorem intgrt_fst_getD (x y : List ℚ) (k : ℕ) (h1 : 1 ≤ k) (h2 : k < x.length) :
    (intgrt x y).1.getD k 0 = trapz (y.take (k + 1)) (x.take (k + 1)) := by
  obtain ⟨k0, rfl⟩ : ∃ k0, k = k0 + 1 := ⟨k - 1, by omega⟩
  simp only [intgrt, List.getD_cons_succ]
  rw [getD_map_range _ _ _ (by omega)]

theorem intgrt_snd_getD (x y : List ℚ) (k : ℕ) (h1 : 1 ≤ k) (h2 : k < x.length) :
    (intgrt x y).2.getD k 0 =
      ((x.getD (x.length - 1) 0 - x.getD 0 0) ^ 2 / (12 * (x.length : ℚ) ^ 2)) *
        ((npGradient (y.take (k + 1))).getD ((npGradient (y.take (k + 1))).length - 1) 0 -
          (npGradient (y.take (k + 1))).getD 0 0) := by
  obtain ⟨k0, rfl⟩ : ∃ k0, k = k0 + 1 := ⟨k - 1, by omega⟩
  simp only [intgrt, List.getD_cons_succ]
  rw [getD_map_range _ _ _ (by omega)]

/-- **C1.** For equal-length inputs of length `n ≥ 1` with strictly
monotonic abscissa, `intgrt` returns sequences of length `n` starting at 0;
entry `k ≥ 1` of the integral is the trapezoid-rule integral of `y` over
`x[0..k]`, and entry `k ≥ 1` of the error is
`((x[n-1]-x[0])^2/(12 n^2)) * (yp[k]-yp[0])` with `yp` the numerical
gradient of the prefix `y[0..k]` and `n` the full final window length. -/
theorem intgrt_cumulative_spec (x y : List ℚ) (n : ℕ)
    (hx : x.length = n) (hy : y.length = n) (hn : 1 ≤ n)
    (hmono : List.Pairwise (fun a b => a < b) x ∨ List.Pairwise (fun a b => b < a) x) :
    (intgrt x y).1.length = n ∧ (intgrt x y).2.length = n ∧
    (intgrt x y).1.getD 0 0 = 0 ∧ (intgrt x y).2.getD 0 0 = 0 ∧
    (∀ k, 1 ≤ k → k < n → (intgrt x y).1.getD k 0 = trapSum x y k) ∧
    (∀ k, 1 ≤ k → k < n → (intgrt x y).2.getD k 0 = trapErr x y k) := by
  subst hx
  refine ⟨length_intgrt_fst x y hn, length_intgrt_snd x y hn, rfl, rfl, ?_, ?_⟩
  · intro k hk1 hk2
    rw [intgrt_fst_getD x y k hk1 hk2, trapz_eq_sum, trapSum]
    have hty : (y.take (k + 1)).length = k + 1 := by
      rw [List.length_take]; omega
    have htx : (x.take (k + 1)).length = k + 1 := by
      rw [List.length_take]; omega
    rw [hty, htx, min_self]
    refine congrArg List.sum (List.map_congr_left fun j hj => ?_)
    rw [List.mem_range] at hj
    rw [getD_take_of_lt _ _ _ (by omega), getD_take_of_lt _ _ _ (by omega),
      getD_take_of_lt _ _ _ (by omega), getD_take_of_lt _ _ _ (by omega)]
  · intro k hk1 hk2
    rw [intgrt_snd_getD x y k hk1 hk2, trapErr]
    have hty : (y.take (k + 1)).length = k + 1 := by
      rw [List.length_take]; omega
    rw [length_npGradient _ (by omega)]
    rw [hty]
    norm_num

/-- **C6.** Empty input yields the single-element all-zero pair, and so
does any one-element input. -/
theorem intgrt_degenerate :
    intgrt [] [] = ([0], [0]) ∧ ∀ (a b : ℚ), intgrt [a] [b] = ([0], [0]) :=
  ⟨rfl, fun _ _ => rfl⟩

/-- **C5, counterexample.** For the strictly monotonic but non-uniformly
spaced abscissa `x = [0,1,3]` and the strictly linear ordinate
`y = 1*x + 0`, the error entry at index 2 is `1/12`, not 0: `np.gradient`
differentiates with respect to position, not with respect to `x`. -/
theorem intgrt_err_linear_counterexample :
    List.Pairwise (fun a b => a < b) [(0 : ℚ), 1, 3] ∧
    [(0 : ℚ), 1, 3].map (fun v => 1 * v + 0) = [(0 : ℚ), 1, 3] ∧
    (intgrt [(0 : ℚ), 1, 3] [(0 : ℚ), 1, 3]).2.getD 2 0 = 1 / 12 ∧
    ¬ (intgrt [(0 : ℚ), 1, 3] [(0 : ℚ), 1, 3]).2.getD 2 0 = 0 := by
  refine ⟨by decide, by norm_num, ?_, ?_⟩ <;>
    norm_num [intgrt, trapz, npGradient, List.range_succ]

theorem npGradient_affine (c d : ℚ) (m : ℕ) (hm : 2 ≤ m) :
    npGradient ((List.range m).map (fun j : ℕ => c + (j : ℚ) * d)) = List.replicate m d := by
  rw [npGradient, if_neg (by simp only [List.length_map, List.length_range]; omega)]
  simp only [List.length_map, List.length_range]
  refine List.ext_getElem (by simp) ?_
  intro j hj hj'
  simp only [List.length_map, List.length_range] at hj
  rw [List.getElem_map, List.getElem_range, List.getElem_replicate]
  have hsub : ((j - 1 : ℕ) : ℚ) = (j : ℚ) - 1 ∨ j = 0 := by
    rcases Nat.eq_zero_or_pos j with h0 | h1
    · exact Or.inr h0
    · exact Or.inl (by push_cast [Nat.cast_sub h1]; ring)
  split_ifs with h0 hl
  · subst h0
    rw [getD_map_range _ _ _ (by omega), getD_map_range _ _ _ (by omega)]
    push_cast
    ring
  · rcases hsub with hsub | hsub
    · rw [getD_map_range _ _ _ (by omega), getD_map_range _ _ _ (by omega), hsub]
      ring
    · exact absurd hsub h0
  · rcases hsub with hsub | hsub
    · rw [getD_map_range _ _ _ (by omega), getD_map_range _ _ _ (by omega), hsub]
      push_cast
      ring
    · exact absurd hsub h0

/-- **C5, amended.** For a uniformly spaced strictly monotonic abscissa
`x[j] = x0 + j*h` (`h ≠ 0`) and a strictly linear ordinate `y = a*x + b`
over it, every entry of the error sequence of `intgrt` is exactly zero
(the index-space gradient of `y` is then constant).  For non-uniform
spacing the error can be nonzero (see the counterexample). -/
theorem intgrt_err_zero_on_uniform_linear (x0 h a b : ℚ) (n : ℕ) (hh : h ≠ 0)
    (k : ℕ) (hk : k < n) :
    (intgrt ((List.range n).map fun j : ℕ => x0 + (j : ℚ) * h)
        ((List.range n).map fun j : ℕ => a * (x0 + (j : ℚ) * h) + b)).2.getD k 0 = 0 := by
  rcases Nat.eq_zero_or_pos k with rfl | hk1
  · rfl
  · rw [intgrt_snd_getD _ _ k hk1 (by simpa using hk)]
    have hyrw : (((List.range n).map fun j : ℕ => a * (x0 + (j : ℚ) * h) + b).take (k + 1)) =
        (List.range (k + 1)).map (fun j : ℕ => (a * x0 + b) + (j : ℚ) * (a * h)) := by
      rw [← List.map_take, List.take_range, min_eq_left (by omega)]
      refine List.map_congr_left fun j hj => ?_
      ring
    rw [hyrw, npGradient_affine _ _ _ (by omega)]
    have hrep : ∀ (i : ℕ), i < k + 1 →
        (List.replicate (k + 1) (a * h)).getD i 0 = a * h := by
      intro i hi
      rw [List.getD_eq_getElem?_getD, List.getElem?_replicate, if_pos hi]
      rfl
    rw [List.length_replicate, hrep _ (by omega), hrep _ (by omega)]
    simp

/-- Witness for C1 at `x = [0,1,2]`, `y = [1,3,2]`, `n = 3`. -/
theorem intgrt_cumulative_spec_witness :
    (1 ≤ 3 ∧ List.Pairwise (fun a b : ℚ => a < b) [0, 1, 2]) ∧
    ((intgrt [(0 : ℚ), 1, 2] [(1 : ℚ), 3, 2]).1.length = 3 ∧
      (intgrt [(0 : ℚ), 1, 2] [(1 : ℚ), 3, 2]).2.length = 3 ∧
      (intgrt [(0 : ℚ), 1, 2] [(1 : ℚ), 3, 2]).1.getD 0 0 = 0 ∧
      (intgrt [(0 : ℚ), 1, 2] [(1 : ℚ), 3, 2]).2.getD 0 0 = 0 ∧
      (∀ k, 1 ≤ k → k < 3 → (intgrt [(0 : ℚ), 1, 2] [(1 : ℚ), 3, 2]).1.getD k 0 =
        trapSum [(0 : ℚ), 1, 2] [(1 : ℚ), 3, 2] k) ∧
      (∀ k, 1 ≤ k → k < 3 → (intgrt [(0 : ℚ), 1, 2] [(1 : ℚ), 3, 2]).2.getD k 0 =
        trapErr [(0 : ℚ), 1, 2] [(1 : ℚ), 3, 2] k)) :=
  ⟨⟨by decide, by decide⟩,
    intgrt_cumulative_spec [0, 1, 2] [1, 3, 2] 3 rfl rfl (by decide)
      (Or.inl (by decide))⟩

/-- Witness for the amended C5 at `x0 = 0`, `h = 1`, `a = 2`, `b = 5`,
`n = 3`, `k = 2`. -/
theorem intgrt_err_zero_on_uniform_linear_witness :
    ((1 : ℚ) ≠ 0 ∧ 2 < 3) ∧
    (intgrt ((List.range 3).map fun j : ℕ => 0 + (j : ℚ) * 1)
        ((List.range 3).map fun j : ℕ => 2 * (0 + (j : ℚ) * 1) + 5)).2.getD 2 0 = 0 :=
  ⟨⟨by decide, by decide⟩,
    intgrt_err_zero_on_uniform_linear 0 1 2 5 3 (by decide) 2 (by decide)⟩

/-! ### Autocorrelation error estimator (`_error_from_u`, lines 139-151) -/

/-- `np.arange(a, b, 1)` over integers: `[a, a+1, ..., b-1]` (empty when
`b ≤ a`). -/
def arangeZ (a b : ℤ) : List ℤ := (List.range (b - a).toNat).map (fun k : ℕ => a + k)

/-- NumPy integer-array indexing `l[t]`: a negative index wraps once from
the end.  Total model; `indexOk` captures the bounds NumPy enforces. -/
def npGetZ (l : List ℚ) (t : ℤ) : ℚ :=
  if 0 ≤ t then l.getD t.toNat 0 else l.getD (((l.length : ℤ) + t).toNat) 0

/-- Validity of a NumPy fancy index into `l`: `-len(l) ≤ t < len(l)`. -/
def indexOk (l : List ℚ) (t : ℤ) : Bool :=
  decide (-(l.length : ℤ) ≤ t) && decide (t < (l.length : ℤ))

/-- One iteration of the lag loop of `_error_from_u`:
`np.sum(ug[t1]*ug[t2])` with `t1 = np.arange(0, len(ug)-i, 1)` and
`t2 = np.arange(i, len(ug), 1)`, where `ug = np.gradient(u)`. -/
def autocov (u : List ℚ) (i : ℕ) : ℚ :=
  let ug := npGradient u
  let t1 := arangeZ 0 ((ug.length : ℤ) - (i : ℤ))
  let t2 := arangeZ (i : ℤ) (ug.length : ℤ)
  (List.zipWith (fun a b => npGetZ ug a * npGetZ ug b) t1 t2).sum

/-- The raw autocovariance list `c` built by the fixed 1000-lag loop. -/
def cRaw (u : List ℚ) : List ℚ := (List.range 1000).map (autocov u)

/-- `c = c/c[0]` followed by `c = c*np.sign(c)`. -/
def cFinal (u : List ℚ) : List ℚ :=
  ((cRaw u).map (fun v => v / (cRaw u).getD 0 0)).map (fun v => v * npSign v)

/-- `c_trs = np.sum(c > .1)`: the number of lags whose final value
exceeds 0.1. -/
def cTrsOf (u : List ℚ) : ℕ :=
  (cFinal u).countP (fun v => decide ((1 : ℚ) / 10 < v))

/-- `_error_from_u(u) = np.std(u)/(len(u)/c_trs)**0.5`.  Exact semantics:
a division by zero yields 0 here, where NumPy silently produces inf/NaN;
for the inputs the claims quantify over the two agree. -/
noncomputable def error_from_u (u : List ℚ) : ℝ :=
  Real.sqrt ((npStdSq u : ℚ) : ℝ) /
    Real.sqrt ((u.length : ℝ) / (cTrsOf u : ℝ))

/-- Spec-side lag-`i` autocovariance of the gradient: the direct sum
`sum over t < len(ug)-i of ug[t]*ug[t+i]`. -/
def autocovSpec (u : List ℚ) (i : ℕ) : ℚ :=
  ((List.range ((npGradient u).length - i)).map
    (fun t => (npGradient u).getD t 0 * (npGradient u).getD (t + i) 0)).sum

/-- Spec-side correlation-decay cutoff: the number of lags `i < 1000`
whose normalized, sign-multiplied autocovariance exceeds 0.1. -/
def cTrsSpec (u : List ℚ) : ℕ :=
  ((List.range 1000).map (fun i =>
    (autocovSpec u i / autocovSpec u 0) * npSign (autocovSpec u i / autocovSpec u 0))).countP
    (fun v => decide ((1 : ℚ) / 10 < v))

theorem npGetZ_natCast (l : List ℚ) (k : ℕ) : npGetZ l (k : ℤ) = l.getD k 0 := by
  rw [npGetZ, if_pos (Int.natCast_nonneg k), Int.toNat_natCast]

theorem autocov_eq_spec (u : List ℚ) (i : ℕ) : autocov u i = autocovSpec u i := by
  unfold autocov autocovSpec arangeZ
  simp only [sub_zero]
  have h1 : (((npGradient u).length : ℤ) - (i : ℤ)).toNat = (npGradient u).length - i := by
    omega
  rw [h1, List.zipWith_map, List.zipWith_same]
  refine congrArg List.sum (List.map_congr_left fun k hk => ?_)
  have e1 : (0 : ℤ) + (k : ℤ) = ((k : ℕ) : ℤ) := by omega
  have e2 : (i : ℤ) + (k : ℤ) = ((k + i : ℕ) : ℤ) := by omega
  rw [e1, e2, npGetZ_natCast, npGetZ_natCast]

theorem cRaw_getD_zero (u : List ℚ) : (cRaw u).getD 0 0 = autocov u 0 :=
  getD_map_range _ 1000 0 (by omega)

theorem cTrs_eq_spec (u : List ℚ) : cTrsOf u = cTrsSpec u := by
  unfold cTrsOf cTrsSpec cFinal
  rw [cRaw_getD_zero]
  unfold cRaw
  rw [List.map_map, List.map_map]
  refine congrArg (List.countP _) (List.map_congr_left fun i hi => ?_)
  simp only [Function.comp_apply]
  rw [autocov_eq_spec u i, autocov_eq_spec u 0]

theorem cTrs_ne_zero_of_c0 (u : List ℚ) (h : autocov u 0 ≠ 0) : cTrsOf u ≠ 0 := by
  have hmem : (1 : ℚ) ∈ cFinal u := by
    unfold cFinal
    refine List.mem_map.mpr ⟨autocov u 0 / (cRaw u).getD 0 0, ?_, ?_⟩
    · refine List.mem_map.mpr ⟨autocov u 0, ?_, rfl⟩
      exact List.mem_map.mpr ⟨0, List.mem_range.mpr (by omega), rfl⟩
    · rw [cRaw_getD_zero, div_self h]
      norm_num [npSign]
  unfold cTrsOf
  intro h0
  rw [List.countP_eq_zero] at h0
  have := h0 _ hmem
  simp only [decide_eq_true_eq] at this
  exact this (by norm_num)

theorem zipWith_zero_sum (f : ℤ → ℤ → ℚ) (hf : ∀ s t, f s t = 0) :
    ∀ (l1 l2 : List ℤ), (List.zipWith f l1 l2).sum = 0 := by
  intro l1
  induction l1 with
  | nil => intro l2; rfl
  | cons a l ih =>
    intro l2
    cases l2 with
    | nil => rfl
    | cons b t => simp [hf, ih]

theorem getD_replicate_zero (n j : ℕ) : (List.replicate n (0 : ℚ)).getD j 0 = 0 := by
  rw [List.getD_eq_getElem?_getD, List.getElem?_replicate]
  split <;> rfl

theorem npGetZ_replicate_zero (n : ℕ) (t : ℤ) :
    npGetZ (List.replicate n (0 : ℚ)) t = 0 := by
  unfold npGetZ
  split <;> exact getD_replicate_zero n _

theorem npGradient_replicate (n : ℕ) (a : ℚ) (h2 : 2 ≤ n) :
    npGradient (List.replicate n a) = List.replicate n 0 := by
  have h : (List.range n).map (fun j : ℕ => a + (j : ℚ) * 0) = List.replicate n a := by
    calc (List.range n).map (fun j : ℕ => a + (j : ℚ) * 0)
        = (List.range n).map (fun _ : ℕ => a) :=
          List.map_congr_left (fun j _ => by ring)
      _ = List.replicate n a := by simp
  have := npGradient_affine a 0 n h2
  rw [h] at this
  exact this

theorem autocov_replicate (n : ℕ) (a : ℚ) (h2 : 2 ≤ n) (i : ℕ) :
    autocov (List.replicate n a) i = 0 := by
  unfold autocov
  rw [npGradient_replicate n a h2]
  exact zipWith_zero_sum _
    (fun s t => by rw [npGetZ_replicate_zero, zero_mul]) _ _

theorem cTrs_replicate (n : ℕ) (a : ℚ) (h2 : 2 ≤ n) :
    cTrsOf (List.replicate n a) = 0 := by
  unfold cTrsOf
  rw [List.countP_eq_zero]
  intro v hv
  unfold cFinal cRaw at hv
  rw [List.map_map, List.map_map] at hv
  obtain ⟨i, hi, rfl⟩ := List.mem_map.mp hv
  clear hv
  simp only [Function.comp_apply, autocov_replicate n a h2, zero_div, zero_mul,
    decide_eq_true_eq]
  norm_num

theorem error_from_u_replicate (a : ℚ) (n : ℕ) (h2 : 2 ≤ n) :
    error_from_u (List.replicate n a) = 0 := by
  have hn : ((n : ℚ)) ≠ 0 := Nat.cast_ne_zero.mpr (by omega)
  have hmean : npMean (List.replicate n a) = a := by
    unfold npMean
    rw [List.sum_replicate, nsmul_eq_mul, List.length_replicate]
    field_simp
  have hstd : npStdSq (List.replicate n a) = 0 := by
    unfold npStdSq
    rw [hmean, List.map_replicate]
    simp
  rw [error_from_u, hstd]
  simp

/-- **C2.** For a series of length at least 2 whose gradient has nonzero
lag-0 autocovariance and nonzero decay cutoff, `_error_from_u` returns
`std(u)/sqrt(len(u)/c_trs)`, where `c_trs` counts the lags `i < 1000`
whose autocovariance `sum over t of ug[t]*ug[t+i]` (over the valid
overlapping indices), normalized by the lag-0 value and multiplied
elementwise by its own sign, exceeds 0.1. -/
theorem error_from_u_matches_spec (u : List ℚ) (h2 : 2 ≤ u.length)
    (hc0 : autocov u 0 ≠ 0) (hct : cTrsOf u ≠ 0) :
    error_from_u u =
      Real.sqrt ((npStdSq u : ℚ) : ℝ) /
        Real.sqrt ((u.length : ℝ) / (cTrsSpec u : ℝ)) ∧
    cTrsOf u = cTrsSpec u ∧ (∀ i, autocov u i = autocovSpec u i) := by
  refine ⟨?_, cTrs_eq_spec u, fun i => autocov_eq_spec u i⟩
  rw [error_from_u, cTrs_eq_spec]

theorem autocov_example_ne : autocov [(0 : ℚ), 1, 0, 1] 0 ≠ 0 := by
  have h1 : (1 : ℤ).toNat = 1 := rfl
  have h2 : (2 : ℤ).toNat = 2 := rfl
  have h3 : (3 : ℤ).toNat = 3 := rfl
  have h4 : (4 : ℤ).toNat = 4 := rfl
  norm_num [autocov, arangeZ, npGetZ, npGradient, List.range_succ, Function.comp,
    h1, h2, h3, h4]

/-- Witness for C2 at `u = [0,1,0,1]`. -/
theorem error_from_u_matches_spec_witness :
    (2 ≤ 4 ∧ autocov [(0 : ℚ), 1, 0, 1] 0 ≠ 0 ∧ cTrsOf [(0 : ℚ), 1, 0, 1] ≠ 0) ∧
    error_from_u [(0 : ℚ), 1, 0, 1] =
      Real.sqrt ((npStdSq [(0 : ℚ), 1, 0, 1] : ℚ) : ℝ) /
        Real.sqrt ((([(0 : ℚ), 1, 0, 1].length : ℕ) : ℝ) /
          (cTrsSpec [(0 : ℚ), 1, 0, 1] : ℝ)) :=
  ⟨⟨by omega, autocov_example_ne, cTrs_ne_zero_of_c0 _ autocov_example_ne⟩,
    (error_from_u_matches_spec _ (by decide) autocov_example_ne
      (cTrs_ne_zero_of_c0 _ autocov_example_ne)).1⟩

/-- **C9.** Applied to a constant series of length at least 2, the
estimator returns exactly zero (the standard deviation of the series is
exactly zero). -/
theorem error_from_u_constant_series (a : ℚ) (n : ℕ) (h2 : 2 ≤ n) :
    error_from_u (List.replicate n a) = 0 :=
  error_from_u_replicate a n h2

/-- Witness for C9 at `u = [5,5,5]`. -/
theorem error_from_u_constant_series_witness :
    2 ≤ 3 ∧ error_from_u (List.replicate 3 (5 : ℚ)) = 0 :=
  ⟨by omega, error_from_u_constant_series 5 3 (by omega)⟩

/-- **C4, counterexample.** On the constant series `[1,1,1,1]` the decay
cutoff `c_trs` is 0, yet `_error_from_u` performs the division unguarded
and produces the plain value 0 (NumPy: a silent inf/NaN chain ending in
`0.0`); no domain error of any kind is surfaced, contradicting the claim
that a zero cutoff is reported as an explicit domain error. -/
theorem error_from_u_silent_on_zero_cutoff :
    cTrsOf (List.replicate 4 (1 : ℚ)) = 0 ∧
    error_from_u (List.replicate 4 (1 : ℚ)) = 0 :=
  ⟨cTrs_replicate 4 1 (by omega), error_from_u_replicate 1 4 (by omega)⟩

/-- **C4, amended.** When the decay cutoff `c_trs` is 0, `_error_from_u`
does not raise: it performs the division anyway and yields a plain
number (0 under the exact semantics, where division by zero is 0; NumPy
reaches the same value through `std(u)/inf`), with no explicit domain
error. -/
theorem error_from_u_zero_cutoff_silent (u : List ℚ) (h : cTrsOf u = 0) :
    error_from_u u = 0 := by
  rw [error_from_u, h]
  simp

/-- Witness for the amended C4 at `u = [3,3,3,3,3]`. -/
theorem error_from_u_zero_cutoff_silent_witness :
    cTrsOf (List.replicate 5 (3 : ℚ)) = 0 ∧
    error_from_u (List.replicate 5 (3 : ℚ)) = 0 :=
  ⟨cTrs_replicate 5 3 (by omega),
    error_from_u_zero_cutoff_silent _ (cTrs_replicate 5 3 (by omega))⟩

/-! ### Bounds-checked view of the lag loop (safety claim) -/

/-- One lag iteration with the NumPy bounds check made explicit: `none`
models an IndexError raised by the fancy indexing `ug[t1]`, `ug[t2]`. -/
def autocovChecked (u : List ℚ) (i : ℕ) : Option ℚ :=
  let ug := npGradient u
  let t1 := arangeZ 0 ((ug.length : ℤ) - (i : ℤ))
  let t2 := arangeZ (i : ℤ) (ug.length : ℤ)
  if t1.all (indexOk ug) && t2.all (indexOk ug) then
    some ((List.zipWith (fun a b => npGetZ ug a * npGetZ ug b) t1 t2).sum)
  else none

/-- `_error_from_u` with the bounds checks threaded through the lag loop:
`none` models an uncaught exception (an IndexError from the fancy
indexing, or the error `np.gradient` raises on series of length < 2). -/
noncomputable def error_from_u_checked (u : List ℚ) : Option ℝ :=
  if u.length < 2 then none
  else
    ((List.range 1000).mapM (autocovChecked u)).map (fun c =>
      Real.sqrt ((npStdSq u : ℚ) : ℝ) /
        Real.sqrt ((u.length : ℝ) /
          ((((c.map (fun v => v / c.getD 0 0)).map (fun v => v * npSign v)).countP
            (fun v => decide ((1 : ℚ) / 10 < v)) : ℕ) : ℝ)))

theorem autocov_ranges_ok (u : List ℚ) (i : ℕ) :
    ((arangeZ 0 (((npGradient u).length : ℤ) - (i : ℤ))).all (indexOk (npGradient u)) &&
     (arangeZ (i : ℤ) ((npGradient u).length : ℤ)).all (indexOk (npGradient u))) = true := by
  rw [Bool.and_eq_true, List.all_eq_true, List.all_eq_true]
  constructor
  · intro t ht
    obtain ⟨k, hk, rfl⟩ := List.mem_map.mp ht
    rw [List.mem_range] at hk
    unfold indexOk
    rw [Bool.and_eq_true]
    exact ⟨decide_eq_true (by omega), decide_eq_true (by omega)⟩
  · intro t ht
    obtain ⟨k, hk, rfl⟩ := List.mem_map.mp ht
    rw [List.mem_range] at hk
    unfold indexOk
    rw [Bool.and_eq_true]
    exact ⟨decide_eq_true (by omega), decide_eq_true (by omega)⟩

theorem autocovChecked_eq (u : List ℚ) (i : ℕ) :
    autocovChecked u i = some (autocov u i) := by
  simp only [autocovChecked, autocov, autocov_ranges_ok, if_true]

theorem mapM_eq_some_map (f : ℕ → Option ℚ) (g : ℕ → ℚ) :
    ∀ (l : List ℕ), (∀ x ∈ l, f x = some (g x)) → l.mapM f = some (l.map g) := by
  intro l
  induction l with
  | nil => intro _; rfl
  | cons a t ih =>
    intro h
    rw [List.mapM_cons, h a (List.mem_cons_self a t),
      ih (fun x hx => h x (List.mem_cons_of_mem a hx))]
    rfl

theorem arangeZ_empty (a b : ℤ) (h : b ≤ a) : arangeZ a b = [] := by
  unfold arangeZ
  rw [Int.toNat_of_nonpos (by omega), List.range_zero, List.map_nil]

/-- **C10.** For a series with `2 ≤ len(u) < 1000` satisfying the claim
nondegeneracy hypotheses, `_error_from_u` evaluates with every fancy
index in bounds (the bounds-checked variant returns `some` of the
unchecked value, raising nothing), and for every lag `i ≥ len(u)` both
overlap index ranges are empty, so the lag-`i` sum is 0. -/
theorem error_from_u_safe (u : List ℚ) (h2 : 2 ≤ u.length) (h1000 : u.length < 1000)
    (hc0 : autocov u 0 ≠ 0) (hct : cTrsOf u ≠ 0) :
    error_from_u_checked u = some (error_from_u u) ∧
    (∀ i : ℕ, u.length ≤ i →
      arangeZ 0 (((npGradient u).length : ℤ) - (i : ℤ)) = [] ∧
      arangeZ (i : ℤ) ((npGradient u).length : ℤ) = [] ∧
      autocov u i = 0) := by
  have hlen := length_npGradient u h2
  constructor
  · rw [error_from_u_checked, if_neg (by omega)]
    rw [mapM_eq_some_map (autocovChecked u) (autocov u) _
      (fun x _ => autocovChecked_eq u x)]
    rfl
  · intro i hi
    refine ⟨arangeZ_empty 0 _ (by omega), arangeZ_empty _ _ (by omega), ?_⟩
    simp only [autocov]
    rw [arangeZ_empty 0 _ (by omega)]
    rfl

/-- Witness for C10 at `u = [0,1,0,1]`. -/
theorem error_from_u_safe_witness :
    (2 ≤ 4 ∧ 4 < 1000) ∧
    error_from_u_checked [(0 : ℚ), 1, 0, 1] = some (error_from_u [(0 : ℚ), 1, 0, 1]) :=
  ⟨⟨by omega, by omega⟩,
    (error_from_u_safe _ (by decide) (by decide) autocov_example_ne
      (cTrs_ne_zero_of_c0 _ autocov_example_ne)).1⟩

/-! ### Harmonic free-energy evaluators (source lines 72-137)

File parsing and the eigenvalue-to-frequency unit conversion are the
I/O-adapter part; the evaluators are embedded from the temperature loop
(lines 91-105 and 119-137) as functions of the parsed spectrum. -/

/-- `ipi_harmonic_free_energy`: per temperature `T_`, with
`beta = 1/(T_*kb_J)`, sums `hb_J*om/2 + beta^(-1)*log(1-exp(-hb_J*om*beta))`
(quantum) and `log(beta*hb_J*om)/beta` (classical) over all angular
frequencies `om`, then applies `*J2ev/nmols + U_latt`. -/
noncomputable def ipi_harmonic_free_energy (omega : List ℝ) (T : List ℝ)
    (nmols U_latt : ℝ) : List ℝ × List ℝ :=
  (T.map (fun T_ =>
      (omega.map (fun om =>
        hb_J * om / 2 + (1 / (T_ * kb_J))⁻¹ *
          Real.log (1 - Real.exp (-(hb_J * om * (1 / (T_ * kb_J))))))).sum
        * J2ev / nmols + U_latt),
   T.map (fun T_ =>
      (omega.map (fun om =>
        Real.log (1 / (T_ * kb_J) * hb_J * om) / (1 / (T_ * kb_J)))).sum
        * J2ev / nmols + U_latt))

/-- `phonopy_harmonic_free_energy`: same two sums with each mode
`m = (om, dos)` weighted by its DOS column `m.2` (lines 119-137). -/
noncomputable def phonopy_harmonic_free_energy (modes : List (ℝ × ℝ)) (T : List ℝ)
    (nmols U_latt : ℝ) : List ℝ × List ℝ :=
  (T.map (fun T_ =>
      (modes.map (fun m =>
        m.2 * (hb_J * m.1 / 2 + (1 / (T_ * kb_J))⁻¹ *
          Real.log (1 - Real.exp (-(hb_J * m.1 * (1 / (T_ * kb_J)))))))).sum
        * J2ev / nmols + U_latt),
   T.map (fun T_ =>
      (modes.map (fun m =>
        m.2 * (Real.log (1 / (T_ * kb_J) * hb_J * m.1) / (1 / (T_ * kb_J))))).sum
        * J2ev / nmols + U_latt))

/-- Spec-side quantum per-mode term `w * (ħω/2 + kT·ln(1 − e^(−ħω/(kT))))`. -/
noncomputable def FqSpec (w om kT : ℝ) : ℝ :=
  w * (hb_J * om / 2 + kT * Real.log (1 - Real.exp (-(hb_J * om) / kT)))

/-- Spec-side classical per-mode term `w * kT·ln(ħω/(kT))`. -/
noncomputable def FcSpec (w om kT : ℝ) : ℝ :=
  w * (kT * Real.log (hb_J * om / kT))

/-- Spec-side harmonic evaluator: the weighted-mode sums of `FqSpec` and
`FcSpec`, converted to eV, divided by the molecule count and offset by
the lattice energy. -/
noncomputable def harmonicSpec (modes : List (ℝ × ℝ)) (T : List ℝ)
    (nmols U_latt : ℝ) : List ℝ × List ℝ :=
  (T.map (fun T_ =>
      (modes.map (fun m => FqSpec m.2 m.1 (kb_J * T_))).sum * J2ev / nmols + U_latt),
   T.map (fun T_ =>
      (modes.map (fun m => FcSpec m.2 m.1 (kb_J * T_))).sum * J2ev / nmols + U_latt))

theorem fq_body_eq (om T_ : ℝ) :
    hb_J * om / 2 + (1 / (T_ * kb_J))⁻¹ *
      Real.log (1 - Real.exp (-(hb_J * om * (1 / (T_ * kb_J))))) =
    hb_J * om / 2 + kb_J * T_ * Real.log (1 - Real.exp (-(hb_J * om) / (kb_J * T_))) := by
  ring_nf
  simp only [inv_inv]
  try ring

theorem fc_body_eq (om T_ : ℝ) :
    Real.log (1 / (T_ * kb_J) * hb_J * om) / (1 / (T_ * kb_J)) =
    kb_J * T_ * Real.log (hb_J * om / (kb_J * T_)) := by
  ring_nf
  simp only [inv_inv]
  try ring

/-- **C3.** Both harmonic evaluators return, per temperature,
`Fq(T) = Σ w·(ħω/2 + kT·ln(1−e^(−ħω/(kT))))` and
`Fc(T) = Σ w·kT·ln(ħω/(kT))` over all modes, converted to eV, divided by
the molecule count and offset by `U_latt` — with uniform weight 1 in the
ipi variant and the DOS column as the weight in the phonopy variant. -/
theorem harmonic_free_energy_spec (omega : List ℝ) (modes : List (ℝ × ℝ))
    (T : List ℝ) (nmols U_latt : ℝ) :
    ipi_harmonic_free_energy omega T nmols U_latt =
      harmonicSpec (omega.map (fun om => (om, 1))) T nmols U_latt ∧
    phonopy_harmonic_free_energy modes T nmols U_latt =
      harmonicSpec modes T nmols U_latt := by
  constructor
  · unfold ipi_harmonic_free_energy harmonicSpec
    simp only [Prod.mk.injEq, List.map_map]
    constructor <;>
    · refine List.map_congr_left fun T_ _ => ?_
      refine congrArg (fun s => s * J2ev / nmols + U_latt) ?_
      refine congrArg List.sum (List.map_congr_left fun om _ => ?_)
      simp only [Function.comp_apply, FqSpec, FcSpec, one_mul]
      first
        | exact fq_body_eq om T_
        | exact fc_body_eq om T_
  · unfold phonopy_harmonic_free_energy harmonicSpec
    simp only [Prod.mk.injEq]
    constructor <;>
    · refine List.map_congr_left fun T_ _ => ?_
      refine congrArg (fun s => s * J2ev / nmols + U_latt) ?_
      refine congrArg List.sum (List.map_congr_left fun m _ => ?_)
      simp only [FqSpec, FcSpec]
      first
        | exact congrArg (fun t => m.2 * t) (fq_body_eq m.1 T_)
        | exact congrArg (fun t => m.2 * t) (fc_body_eq m.1 T_)

/-! ### Lattice-energy extraction (`lammps_log_to_U_latt`, lines 59-70) -/

/-- Helper for Python `str.split()`: accumulate a field, break on
whitespace runs, drop empty fields. -/
def splitWsChars : List Char → List Char → List String
  | [], acc => if acc.isEmpty then [] else [String.mk acc.reverse]
  | c :: cs, acc =>
      if c.isWhitespace then
        if acc.isEmpty then splitWsChars cs []
        else String.mk acc.reverse :: splitWsChars cs []
      else splitWsChars cs (c :: acc)

/-- Python `str.split()` with no argument: split on whitespace runs,
dropping empty fields. -/
def splitWhitespace (s : String) : List String := splitWsChars s.data []

/-- Decimal digits to a natural number (base-10 fold). -/
def natOfDigits (l : List Char) : ℕ :=
  l.foldl (fun a c => a * 10 + (c.toNat - 48)) 0

/-- Python `float()` restricted to plain decimal literals (optional sign,
integer digits, optional fractional part) — the shapes occurring in the
second field of a LAMMPS thermo line.  `none` models a ValueError. -/
def parseFloat (s : String) : Option ℚ :=
  let core : List Char → Option ℚ := fun cs =>
    let ip := cs.takeWhile Char.isDigit
    let rest := cs.drop ip.length
    match rest with
    | [] => if ip.isEmpty then none else some ((natOfDigits ip : ℚ))
    | '.' :: fp =>
        if fp.all Char.isDigit && !(ip.isEmpty && fp.isEmpty) then
          some ((natOfDigits ip : ℚ) + (natOfDigits fp : ℚ) / 10 ^ fp.length)
        else none
    | _ => none
  match s.data with
  | '-' :: r => (core r).map (fun q => -q)
  | '+' :: r => core r
  | r => core r

/-- `lammps_log_to_U_latt` on the list of log lines: index of the first
line whose first 9 characters are `"Loop time"`, minus one (Python index
`-1` wraps to the last line when the marker is line 0); split that line
on whitespace and parse field 1 as a float.  The `Except.error` values
carry the Python exception messages (IndexError / ValueError). -/
def lammps_log_to_U_latt (lines : List String) : Except String ℚ :=
  match (List.range lines.length).filter
      (fun i => decide ((lines.getD i "").take 9 = "Loop time")) with
  | [] => Except.error "list index out of range"
  | i :: _ =>
    let j := if i = 0 then lines.length - 1 else i - 1
    match (splitWhitespace (lines.getD j "")).get? 1 with
    | none => Except.error "list index out of range"
    | some t =>
      match parseFloat t with
      | none => Except.error "could not convert string to float"
      | some q => Except.ok q

theorem range_filter_first (p : ℕ → Bool) :
    ∀ (n i : ℕ), i < n → p i = true → (∀ j, j < i → p j = false) →
      ∃ rest, (List.range n).filter p = i :: rest := by
  intro n
  induction n with
  | zero => intro i hi hp hmin; omega
  | succ m ih =>
    intro i hi hp hmin
    rw [List.range_succ, List.filter_append]
    rcases Nat.lt_or_ge i m with hlt | hge
    · obtain ⟨rest, hrest⟩ := ih i hlt hp hmin
      exact ⟨rest ++ List.filter p [m], by rw [hrest]; rfl⟩
    · have him : i = m := by omega
      subst him
      have h1 : (List.range i).filter p = [] := by
        refine List.filter_eq_nil_iff.mpr ?_
        intro a ha
        rw [List.mem_range] at ha
        simp [hmin a ha]
      rw [h1, List.nil_append]
      exact ⟨[], by simp [List.filter, hp]⟩

/-- **C7.** If the first line starting with the marker `"Loop time"` is
at index `i ≥ 1`, and field 1 of the immediately preceding line parses
as the float `q`, then `lammps_log_to_U_latt` returns `q`; if no line
starts with the marker, it fails with the out-of-range indexing error. -/
theorem lammps_log_to_U_latt_spec :
    (∀ (lines : List String) (i : ℕ) (tok : String) (q : ℚ),
      i < lines.length →
      (lines.getD i "").take 9 = "Loop time" →
      (∀ j, j < i → ¬ (lines.getD j "").take 9 = "Loop time") →
      1 ≤ i →
      (splitWhitespace (lines.getD (i - 1) "")).get? 1 = some tok →
      parseFloat tok = some q →
      lammps_log_to_U_latt lines = Except.ok q) ∧
    (∀ lines : List String,
      (∀ l ∈ lines, ¬ l.take 9 = "Loop time") →
      lammps_log_to_U_latt lines = Except.error "list index out of range") := by
  constructor
  · intro lines i tok q hin hp hmin h1 htok hq
    obtain ⟨rest, hfil⟩ := range_filter_first
      (fun j => decide ((lines.getD j "").take 9 = "Loop time")) lines.length i hin
      (decide_eq_true hp) (fun j hj => decide_eq_false (hmin j hj))
    unfold lammps_log_to_U_latt
    rw [hfil]
    simp only [if_neg (by omega : ¬ i = 0)]
    rw [htok]
    simp only [hq]
  · intro lines hnone
    have hfil : (List.range lines.length).filter
        (fun j => decide ((lines.getD j "").take 9 = "Loop time")) = [] := by
      refine List.filter_eq_nil_iff.mpr ?_
      intro a ha
      rw [List.mem_range] at ha
      have hmem : lines.getD a "" ∈ lines := by
        rw [List.getD_eq_getElem?_getD, List.getElem?_eq_getElem ha, Option.getD_some]
        exact List.getElem_mem ha
      simp only [decide_eq_true_eq]
      exact hnone _ hmem
    unfold lammps_log_to_U_latt
    rw [hfil]

theorem parseFloat_example : parseFloat "-12.34" = some (-12.34 : ℚ) := by
  have c1 : ('1').toNat = 49 := rfl
  have c2 : ('2').toNat = 50 := rfl
  have c3 : ('3').toNat = 51 := rfl
  have c4 : ('4').toNat = 52 := rfl
  norm_num +decide [parseFloat, natOfDigits, c1, c2, c3, c4]

/-- Witness for C7: marker at line 1 preceded by `"0 -12.34 xyz"`; and a
marker-free two-line file. -/
theorem lammps_log_to_U_latt_witness :
    lammps_log_to_U_latt ["0 -12.34 xyz", "Loop time of 5"] = Except.ok (-12.34 : ℚ) ∧
    lammps_log_to_U_latt ["abc", "def"] = Except.error "list index out of range" :=
  ⟨lammps_log_to_U_latt_spec.1 ["0 -12.34 xyz", "Loop time of 5"] 1 "-12.34" (-12.34)
      (by decide) (by decide)
      (fun j hj => by
        have hj0 : j = 0 := by omega
        subst hj0
        decide)
      (by decide) (by decide) parseFloat_example,
    lammps_log_to_U_latt_spec.2 ["abc", "def"] (by decide)⟩

/-! ### Coupling-parameter TI pipeline (`integrated_ff_2_dft`, lines
223-242, and the scalar extraction in `fe_sample`, lines 334-340)

The per-directory loop (means of the two potentials, per-lambda errors)
is the I/O-adapter part; the pipeline is embedded from the point where
the three aligned per-lambda lists exist.  `np.argsort` followed by the
three `[idx]` applications is modeled as one stable sort of the zipped
triples by the lambda component. -/

/-- The `idx = np.argsort(_lambda)` permutation applied to the zipped
per-lambda triples. -/
def sortedTriples (lam du duerr : List ℚ) : List (ℚ × ℚ × ℚ) :=
  List.insertionSort (fun p q => p.1 ≤ q.1) (lam.zip (du.zip duerr))

/-- `_lambda = np.array(_lambda)[idx]`. -/
def lamSorted (lam du duerr : List ℚ) : List ℚ :=
  (sortedTriples lam du duerr).map (fun p => p.1)

/-- `ff_dft_du = np.array(ff_dft_du)[idx]`. -/
def duSorted (lam du duerr : List ℚ) : List ℚ :=
  (sortedTriples lam du duerr).map (fun p => p.2.1)

/-- `ff_dft_du_err = np.array(ff_dft_du_err)[idx]`. -/
def errSorted (lam du duerr : List ℚ) : List ℚ :=
  (sortedTriples lam du duerr).map (fun p => p.2.2)

/-- `lambda_av = np.mean(np.gradient(_lambda))`. -/
def lambdaAv (lam du duerr : List ℚ) : ℚ :=
  npMean (npGradient (lamSorted lam du duerr))

/-- `integrated_ff_2_dft`: trapezoid-integrates `du/lambda_av` (value and
truncation-error band) and `du_err/lambda_av` (value band only) over the
sorted lambdas; returns `(F_ff_dft, F_ff_dft_err_md, F_ff_dft_err_int)`. -/
def integrated_ff_2_dft (lam du duerr : List ℚ) : List ℚ × List ℚ × List ℚ :=
  ((intgrt (lamSorted lam du duerr)
      ((duSorted lam du duerr).map (fun v => v / lambdaAv lam du duerr))).1,
   (intgrt (lamSorted lam du duerr)
      ((errSorted lam du duerr).map (fun v => v / lambdaAv lam du duerr))).1,
   (intgrt (lamSorted lam du duerr)
      ((duSorted lam du duerr).map (fun v => v / lambdaAv lam du duerr))).2)

/-- The `fe_sample` extraction (lines 338-340): `F_ff_dft[-1]`,
`np.abs(F_ff_dft_err_md[-1])`, `np.abs(F_ff_dft_err_int[-1])`. -/
def fe_sample_coupling (lam du duerr : List ℚ) : ℚ × ℚ × ℚ :=
  ((integrated_ff_2_dft lam du duerr).1.getD
      ((integrated_ff_2_dft lam du duerr).1.length - 1) 0,
   |(integrated_ff_2_dft lam du duerr).2.1.getD
      ((integrated_ff_2_dft lam du duerr).2.1.length - 1) 0|,
   |(integrated_ff_2_dft lam du duerr).2.2.getD
      ((integrated_ff_2_dft lam du duerr).2.2.length - 1) 0|)

/-- **C8, counterexample.** With `lambda = [0,1,2]`, `du = [0,1,0]`,
`du_err = [0,0,0]`, the final entry of the truncation-error sequence is
`-2/27`, but the aggregate record reports `2/27`: `fe_sample` applies
`np.abs` to the two error scalars, so it does not report the final
cumulative value of each of the three sequences. -/
theorem fe_sample_coupling_counterexample :
    (integrated_ff_2_dft [0, 1, 2] [0, 1, 0] [0, 0, 0]).2.2.getD 2 0 = -2 / 27 ∧
    (fe_sample_coupling [0, 1, 2] [0, 1, 0] [0, 0, 0]).2.2 = 2 / 27 ∧
    fe_sample_coupling [0, 1, 2] [0, 1, 0] [0, 0, 0] ≠
      ((integrated_ff_2_dft [0, 1, 2] [0, 1, 0] [0, 0, 0]).1.getD 2 0,
       (integrated_ff_2_dft [0, 1, 2] [0, 1, 0] [0, 0, 0]).2.1.getD 2 0,
       (integrated_ff_2_dft [0, 1, 2] [0, 1, 0] [0, 0, 0]).2.2.getD 2 0) := by
  refine ⟨?_, ?_, ?_⟩ <;>
    norm_num +decide [fe_sample_coupling, integrated_ff_2_dft, sortedTriples, lamSorted,
      duSorted, errSorted, lambdaAv, npMean, npGradient, intgrt, trapz,
      List.insertionSort, List.orderedInsert, List.range_succ, Prod.ext_iff]

/-- **C8, amended.** For aligned per-lambda data of length `n ≥ 2`: the
pipeline sorts the triples by lambda ascending (a permutation of the
input), trapezoid-integrates `du/mean(gradient(lambda))` over the sorted
lambdas (coupling correction with truncation-error band) and the
averaged per-lambda error the same way (MD error band); the aggregate
record reports the final cumulative coupling value, and the absolute
values — not the raw values — of the final entries of the two error
sequences. -/
theorem integrated_ff_2_dft_spec (lam du duerr : List ℚ) (n : ℕ)
    (h1 : lam.length = n) (h2 : du.length = n) (h3 : duerr.length = n) (hn : 2 ≤ n) :
    (lamSorted lam du duerr).Sorted (· ≤ ·) ∧
    List.Perm (sortedTriples lam du duerr) (lam.zip (du.zip duerr)) ∧
    integrated_ff_2_dft lam du duerr =
      ((intgrt (lamSorted lam du duerr)
          ((duSorted lam du duerr).map (fun v => v / lambdaAv lam du duerr))).1,
       (intgrt (lamSorted lam du duerr)
          ((errSorted lam du duerr).map (fun v => v / lambdaAv lam du duerr))).1,
       (intgrt (lamSorted lam du duerr)
          ((duSorted lam du duerr).map (fun v => v / lambdaAv lam du duerr))).2) ∧
    fe_sample_coupling lam du duerr =
      ((integrated_ff_2_dft lam du duerr).1.getD (n - 1) 0,
       |(integrated_ff_2_dft lam du duerr).2.1.getD (n - 1) 0|,
       |(integrated_ff_2_dft lam du duerr).2.2.getD (n - 1) 0|) := by
  haveI htot : IsTotal (ℚ × ℚ × ℚ) (fun p q => p.1 ≤ q.1) :=
    ⟨fun a b => le_total a.1 b.1⟩
  haveI htrans : IsTrans (ℚ × ℚ × ℚ) (fun p q => p.1 ≤ q.1) :=
    ⟨fun a b c hab hbc => le_trans hab hbc⟩
  have hzip : (lam.zip (du.zip duerr)).length = n := by
    rw [List.length_zip, List.length_zip]
    omega
  have hsortlen : (sortedTriples lam du duerr).length = n := by
    rw [sortedTriples, (List.perm_insertionSort _ _).length_eq]
    exact hzip
  have hlam : (lamSorted lam du duerr).length = n := by
    rw [lamSorted, List.length_map]
    exact hsortlen
  have hl1 : (integrated_ff_2_dft lam du duerr).1.length = n := by
    rw [integrated_ff_2_dft]
    rw [length_intgrt_fst _ _ (by omega)]
    exact hlam
  have hl2 : (integrated_ff_2_dft lam du duerr).2.1.length = n := by
    rw [integrated_ff_2_dft]
    rw [length_intgrt_fst _ _ (by omega)]
    exact hlam
  have hl3 : (integrated_ff_2_dft lam du duerr).2.2.length = n := by
    rw [integrated_ff_2_dft]
    rw [length_intgrt_snd _ _ (by omega)]
    exact hlam
  refine ⟨?_, ?_, rfl, ?_⟩
  · rw [lamSorted]
    exact List.Pairwise.map (fun p : ℚ × ℚ × ℚ => p.1) (fun a b hab => hab)
      (List.sorted_insertionSort (fun p q : ℚ × ℚ × ℚ => p.1 ≤ q.1)
        (lam.zip (du.zip duerr)))
  · exact List.perm_insertionSort _ _
  · rw [fe_sample_coupling, hl1, hl2, hl3]

/-- Witness for the amended C8 at `lambda = [1,0]`, `du = [2,3]`,
`du_err = [4,5]` (unsorted input, `n = 2`). -/
theorem integrated_ff_2_dft_spec_witness :
    (lamSorted [1, 0] [2, 3] [4, 5]).Sorted (· ≤ ·) ∧
    List.Perm (sortedTriples [1, 0] [2, 3] [4, 5]) ([(1 : ℚ), 0].zip ([(2 : ℚ), 3].zip [(4 : ℚ), 5])) ∧
    integrated_ff_2_dft [1, 0] [2, 3] [4, 5] =
      ((intgrt (lamSorted [1, 0] [2, 3] [4, 5])
          ((duSorted [1, 0] [2, 3] [4, 5]).map (fun v => v / lambdaAv [1, 0] [2, 3] [4, 5]))).1,
       (intgrt (lamSorted [1, 0] [2, 3] [4, 5])
          ((errSorted [1, 0] [2, 3] [4, 5]).map (fun v => v / lambdaAv [1, 0] [2, 3] [4, 5]))).1,
       (intgrt (lamSorted [1, 0] [2, 3] [4, 5])
          ((duSorted [1, 0] [2, 3] [4, 5]).map (fun v => v / lambdaAv [1, 0] [2, 3] [4, 5]))).2) ∧
    fe_sample_coupling [1, 0] [2, 3] [4, 5] =
      ((integrated_ff_2_dft [1, 0] [2, 3] [4, 5]).1.getD 1 0,
       |(integrated_ff_2_dft [1, 0] [2, 3] [4, 5]).2.1.getD 1 0|,
       |(integrated_ff_2_dft [1, 0] [2, 3] [4, 5]).2.2.getD 1 0|) :=
  integrated_ff_2_dft_spec [1, 0] [2, 3] [4, 5] 2 rfl rfl rfl (by omega)
